import Mathlib

/-!
Verification of the two numerical routines of this repository against its
specification: the two-state Markov state-sequence generator of
`markov_chains1.ipynb` (functions `markov1`, `markov`, `markov_cython`) and
the Gram-Schmidt orthonormal-basis builder of the linear-algebra notebook
(function `gram_schmidt`, plus the projection cells `Py1` and `Py2`).

The Markov functions are embedded over the rationals (the Python code draws
floating-point numbers in `[0,1)`; every comparison the code performs is an
exact order comparison, so the embedding over a linearly ordered field is
faithful and executable).  The stored states are the exact values `0` and `1`,
modelled as naturals.  The Gram-Schmidt routine is embedded over the real
numbers, matching the spec's reading of the code over exact real arithmetic.
-/

open Matrix MeasureTheory

/-- One pass of the main loop of `markov` (and of `markov_cython`, whose loop
body is identical): from state `1` the next state is `x[i] < h_h` and from any
other stored state (i.e. state `0`) it is `x[i] > l_l`, booleans stored as the
numbers `1`/`0`. -/
def markovStep {α : Type*} [LinearOrder α] (h_h l_l r : α) (s : ℕ) : ℕ :=
  if s = 1 then (if r < h_h then 1 else 0)
  else (if r > l_l then 1 else 0)

/-- One pass of the main loop of `markov1`: from state `1` the next state is
`states[0] = 1` when `x[i] <= h_h` and `states[1] = 0` otherwise; from state
`0` it is `states[1] = 0` when `x[i] <= l_l` and `states[0] = 1` otherwise. -/
def markov1Step {α : Type*} [LinearOrder α] (h_h l_l r : α) (s : ℕ) : ℕ :=
  if s = 1 then (if r ≤ h_h then 1 else 0)
  else (if r ≤ l_l then 0 else 1)

/-- The state stored at position `i` by `markov`: position `0` holds the
initial state `1`, and position `i+1` is computed from position `i` and the
draw `x i` by the loop body. -/
def markovSeq (h_h l_l : ℚ) (x : ℕ → ℚ) : ℕ → ℕ
  | 0 => 1
  | i + 1 => markovStep h_h l_l (x i) (markovSeq h_h l_l x i)

/-- The state stored at position `i` by `markov1`. -/
def markov1Seq (h_h l_l : ℚ) (x : ℕ → ℚ) : ℕ → ℕ
  | 0 => 1
  | i + 1 => markov1Step h_h l_l (x i) (markov1Seq h_h l_l x i)

/-- The sequence returned by `markov(n, h_h, l_l)` when the ambient random
draws are `x`: the array `seq_states` of length `n` filled by the loop. -/
def markov (n : ℕ) (h_h l_l : ℚ) (x : ℕ → ℚ) : List ℕ :=
  (List.range n).map (markovSeq h_h l_l x)

/-- The sequence returned by `markov1(n, h_h, l_l)` with draws `x`. -/
def markov1 (n : ℕ) (h_h l_l : ℚ) (x : ℕ → ℚ) : List ℕ :=
  (List.range n).map (markov1Seq h_h l_l x)

/-- The sequence returned by `markov_cython(n, h_h, l_l)` with draws `x`.
Its loop body and initialisation are character-for-character those of
`markov` (`states[0] = 1`; from state `1` store `x[i] < h_h`, otherwise store
`x[i] > l_l`), the only differences being memory-view bookkeeping, so its
embedding reuses the same state recurrence. -/
def markov_cython (n : ℕ) (h_h l_l : ℚ) (x : ℕ → ℚ) : List ℕ :=
  (List.range n).map (markovSeq h_h l_l x)

/-- Every state `markov` ever stores is `0` or `1`. -/
lemma markovSeq_zero_or_one (h_h l_l : ℚ) (x : ℕ → ℚ) (i : ℕ) :
    markovSeq h_h l_l x i = 0 ∨ markovSeq h_h l_l x i = 1 := by
  cases i with
  | zero => right; rfl
  | succ j =>
    show markovStep _ _ _ _ = 0 ∨ markovStep _ _ _ _ = 1
    unfold markovStep
    split <;> split <;> simp

/-- Every state `markov1` ever stores is `0` or `1`. -/
lemma markov1Seq_zero_or_one (h_h l_l : ℚ) (x : ℕ → ℚ) (i : ℕ) :
    markov1Seq h_h l_l x i = 0 ∨ markov1Seq h_h l_l x i = 1 := by
  cases i with
  | zero => right; rfl
  | succ j =>
    show markov1Step _ _ _ _ = 0 ∨ markov1Step _ _ _ _ = 1
    unfold markov1Step
    split <;> split <;> simp

lemma markov_length (n : ℕ) (h_h l_l : ℚ) (x : ℕ → ℚ) :
    (markov n h_h l_l x).length = n := by
  simp [markov]

lemma markov_getElem? (n : ℕ) (h_h l_l : ℚ) (x : ℕ → ℚ) {i : ℕ} (hi : i < n) :
    (markov n h_h l_l x)[i]? = some (markovSeq h_h l_l x i) := by
  simp [markov, List.getElem?_map, List.getElem?_range, hi]

lemma markov1_getElem? (n : ℕ) (h_h l_l : ℚ) (x : ℕ → ℚ) {i : ℕ} (hi : i < n) :
    (markov1 n h_h l_l x)[i]? = some (markov1Seq h_h l_l x i) := by
  simp [markov1, List.getElem?_map, List.getElem?_range, hi]

/-- Position `i` of the stored sequence depends only on the draws at
positions strictly below `i`. -/
lemma markovSeq_congr_draws (h_h l_l : ℚ) (x x' : ℕ → ℚ) (i : ℕ)
    (hx : ∀ j, j < i → x j = x' j) :
    markovSeq h_h l_l x i = markovSeq h_h l_l x' i := by
  induction i with
  | zero => rfl
  | succ j ih =>
    have hj : markovSeq h_h l_l x j = markovSeq h_h l_l x' j :=
      ih fun t ht => hx t (ht.trans (Nat.lt_succ_self j))
    show markovStep _ _ (x j) _ = markovStep _ _ (x' j) _
    rw [hj, hx j (Nat.lt_succ_self j)]

/-- If two parameter pairs make the loop body act identically on every draw
that is actually consumed, the stored sequences coincide. -/
lemma markovSeq_congr_params (h_h l_l h_h' l_l' : ℚ) (x : ℕ → ℚ) (i : ℕ)
    (hstep : ∀ j s, markovStep h_h l_l (x j) s = markovStep h_h' l_l' (x j) s) :
    markovSeq h_h l_l x i = markovSeq h_h' l_l' x i := by
  induction i with
  | zero => rfl
  | succ j ih =>
    show markovStep _ _ (x j) _ = markovStep _ _ (x j) _
    rw [ih, hstep]

/-- With `h_h = 1` and draws in `[0,1)`, state `1` is absorbing in the stored
sequence. -/
lemma markovSeq_absorb_one (l_l : ℚ) (x : ℕ → ℚ) (hx : ∀ j, 0 ≤ x j ∧ x j < 1)
    (i d : ℕ) (hi : markovSeq 1 l_l x i = 1) :
    markovSeq 1 l_l x (i + d) = 1 := by
  induction d with
  | zero => exact hi
  | succ e ih =>
    show markovStep 1 l_l (x (i + e)) (markovSeq 1 l_l x (i + e)) = 1
    rw [ih]
    simp [markovStep, (hx (i + e)).2]

/-- With `l_l = 1` and draws in `[0,1)`, state `0` is absorbing in the stored
sequence. -/
lemma markovSeq_absorb_zero (h_h : ℚ) (x : ℕ → ℚ) (hx : ∀ j, 0 ≤ x j ∧ x j < 1)
    (i d : ℕ) (hi : markovSeq h_h 1 x i = 0) :
    markovSeq h_h 1 x (i + d) = 0 := by
  induction d with
  | zero => exact hi
  | succ e ih =>
    show markovStep h_h 1 (x (i + e)) (markovSeq h_h 1 x (i + e)) = 0
    rw [ih]
    have h1 : ¬ x (i + e) > 1 := not_lt.mpr (le_of_lt (hx (i + e)).2)
    simp [markovStep, h1]

/-- As long as no draw consumed while the current state is `1` hits `h_h`
exactly, `markov1` (which compares with `<=`) and `markov` (which compares
with `<`) store the same states. -/
lemma markov1Seq_eq_markovSeq (h_h l_l : ℚ) (x : ℕ → ℚ) (n : ℕ)
    (hne : ∀ j, j + 1 < n → markovSeq h_h l_l x j = 1 → x j ≠ h_h) :
    ∀ i, i < n → markov1Seq h_h l_l x i = markovSeq h_h l_l x i := by
  intro i
  induction i with
  | zero => intro _; rfl
  | succ j ih =>
    intro hj
    have hjn : j < n := (Nat.lt_succ_self j).trans hj
    have heq : markov1Seq h_h l_l x j = markovSeq h_h l_l x j := ih hjn
    show markov1Step _ _ (x j) _ = markovStep _ _ (x j) _
    rw [heq]
    rcases markovSeq_zero_or_one h_h l_l x j with h0 | h1
    · rw [h0]
      unfold markov1Step markovStep
      norm_num
      rcases le_or_lt (x j) l_l with hle | hlt
      · simp [hle, not_lt.mpr hle]
      · simp [hlt, not_le.mpr hlt]
    · rw [h1]
      have hxj : x j ≠ h_h := hne j hj h1
      unfold markov1Step markovStep
      norm_num
      rcases lt_or_gt_of_ne hxj with hlt | hgt
      · simp [hlt, le_of_lt hlt]
      · simp [not_lt.mpr (le_of_lt hgt), not_le.mpr hgt]

/-- The cython variant stores exactly the states `markov` stores. -/
lemma markov_cython_eq_markov (n : ℕ) (h_h l_l : ℚ) (x : ℕ → ℚ) :
    markov_cython n h_h l_l x = markov n h_h l_l x := rfl

/-- C1, counterexample.  With `h_h = l_l = 1/2` and every draw equal to
`3/4`, the returned sequence is `[1, 0, 1]`: position `1` holds state `0`
and its draw `3/4` satisfies `r > l_l`, yet position `2` holds `1`.  The
claim's state-`0` clause says position `2` should then be `0`, so the claim
is false of the code: from state `0` the code stores `x[i] > l_l`, moving to
`1` exactly when the draw exceeds `l_l`. -/
theorem C1_counterexample :
    markov 3 (1/2) (1/2) (fun _ => 3/4) = [1, 0, 1] ∧ ((3:ℚ)/4 > 1/2) := by
  constructor
  · norm_num [markov, List.range_succ, markovSeq, markovStep]
  · norm_num

/-- C1, amended.  The generator follows the step rule of the code: position
`0` is `1`, and for every position `i` from `0` to `n-2` with draw `r = x i`,
if the current state is `1` the next state is `1` when `r < h_h` and `0`
otherwise, and if the current state is `0` the next state is `1` when
`r > l_l` and `0` otherwise. -/
theorem C1_step_rule (n : ℕ) (h_h l_l : ℚ) (x : ℕ → ℚ) (hn : 1 ≤ n) :
    (markov n h_h l_l x)[0]? = some 1 ∧
    ∀ i, i + 1 < n →
      (markov n h_h l_l x)[i + 1]? =
        some (if (markov n h_h l_l x)[i]? = some 1
              then (if x i < h_h then 1 else 0)
              else (if x i > l_l then 1 else 0)) := by
  constructor
  · rw [markov_getElem? n h_h l_l x (Nat.lt_of_lt_of_le Nat.zero_lt_one hn)]
    rfl
  · intro i hi
    have hi' : i < n := Nat.lt_of_succ_lt hi
    rw [markov_getElem? n h_h l_l x hi, markov_getElem? n h_h l_l x hi']
    by_cases h : markovSeq h_h l_l x i = 1 <;>
      simp [markovStep, h, markovSeq]

/-- C1, witness: the amended step rule at `n = 2`, `h_h = l_l = 1/2` and
constant draws `1/4`. -/
theorem C1_step_rule_witness :
    (markov 2 (1/2) (1/2) (fun _ => 1/4))[0]? = some 1 ∧
    ∀ i, i + 1 < 2 →
      (markov 2 (1/2) (1/2) (fun _ => 1/4))[i + 1]? =
        some (if (markov 2 (1/2) (1/2) (fun _ => 1/4))[i]? = some 1
              then (if (1:ℚ)/4 < 1/2 then 1 else 0)
              else (if (1:ℚ)/4 > 1/2 then 1 else 0)) :=
  C1_step_rule 2 (1/2) (1/2) (fun _ => 1/4) (by decide)

/-- C4: for every `n ≥ 1`, any parameters and any draw stream, `markov` and
`markov_cython` return a sequence of exactly `n` elements whose element `0`
is `1` and whose every element lies in `{0, 1}`; for `n = 1` the result is
`[1]`. -/
theorem C4_shape (n : ℕ) (h_h l_l : ℚ) (x : ℕ → ℚ) (hn : 1 ≤ n) :
    ((markov n h_h l_l x).length = n ∧
      (markov n h_h l_l x)[0]? = some 1 ∧
      ∀ s ∈ markov n h_h l_l x, s = 0 ∨ s = 1) ∧
    ((markov_cython n h_h l_l x).length = n ∧
      (markov_cython n h_h l_l x)[0]? = some 1 ∧
      ∀ s ∈ markov_cython n h_h l_l x, s = 0 ∨ s = 1) ∧
    (n = 1 → markov n h_h l_l x = [1] ∧ markov_cython n h_h l_l x = [1]) := by
  have hmem : ∀ s ∈ markov n h_h l_l x, s = 0 ∨ s = 1 := by
    intro s hs
    rcases List.mem_map.mp hs with ⟨i, _, rfl⟩
    exact markovSeq_zero_or_one h_h l_l x i
  have hfirst : (markov n h_h l_l x)[0]? = some 1 := by
    rw [markov_getElem? n h_h l_l x (Nat.lt_of_lt_of_le Nat.zero_lt_one hn)]
    rfl
  have hone : n = 1 → markov n h_h l_l x = [1] := by
    rintro rfl
    norm_num [markov, List.range_succ, markovSeq]
  refine ⟨⟨markov_length n h_h l_l x, hfirst, hmem⟩, ?_, ?_⟩
  · rw [markov_cython_eq_markov]
    exact ⟨markov_length n h_h l_l x, hfirst, hmem⟩
  · intro h1
    rw [markov_cython_eq_markov]
    exact ⟨hone h1, hone h1⟩

/-- C4, witness: shape facts at `n = 2`, `h_h = l_l = 1/2`, draws `1/4`. -/
theorem C4_shape_witness :
    ((markov 2 (1/2) (1/2) (fun _ => 1/4)).length = 2 ∧
      (markov 2 (1/2) (1/2) (fun _ => 1/4))[0]? = some 1 ∧
      ∀ s ∈ markov 2 (1/2) (1/2) (fun _ => 1/4), s = 0 ∨ s = 1) ∧
    ((markov_cython 2 (1/2) (1/2) (fun _ => 1/4)).length = 2 ∧
      (markov_cython 2 (1/2) (1/2) (fun _ => 1/4))[0]? = some 1 ∧
      ∀ s ∈ markov_cython 2 (1/2) (1/2) (fun _ => 1/4), s = 0 ∨ s = 1) ∧
    ((2:ℕ) = 1 → markov 2 (1/2) (1/2) (fun _ => 1/4) = [1] ∧
      markov_cython 2 (1/2) (1/2) (fun _ => 1/4) = [1]) :=
  C4_shape 2 (1/2) (1/2) (fun _ => 1/4) (by decide)

/-- C6: for draw streams inside `[0,1)`, with `h_h = 1` every position at or
after one holding state `1` also holds state `1`, and with `l_l = 1` every
position at or after one holding state `0` also holds state `0`. -/
theorem C6_absorbing (n : ℕ) (h_h l_l : ℚ) (x : ℕ → ℚ)
    (hx : ∀ j, 0 ≤ x j ∧ x j < 1) :
    (∀ i j, i ≤ j → j < n → (markov n 1 l_l x)[i]? = some 1 →
       (markov n 1 l_l x)[j]? = some 1) ∧
    (∀ i j, i ≤ j → j < n → (markov n h_h 1 x)[i]? = some 0 →
       (markov n h_h 1 x)[j]? = some 0) := by
  constructor
  · intro i j hij hj hi
    have hi' : i < n := Nat.lt_of_le_of_lt hij hj
    rw [markov_getElem? n 1 l_l x hi'] at hi
    rw [markov_getElem? n 1 l_l x hj]
    have hseq : markovSeq 1 l_l x i = 1 := Option.some_injective _ hi
    have := markovSeq_absorb_one l_l x hx i (j - i) hseq
    rw [Nat.add_sub_cancel' hij] at this
    rw [this]
  · intro i j hij hj hi
    have hi' : i < n := Nat.lt_of_le_of_lt hij hj
    rw [markov_getElem? n h_h 1 x hi'] at hi
    rw [markov_getElem? n h_h 1 x hj]
    have hseq : markovSeq h_h 1 x i = 0 := Option.some_injective _ hi
    have := markovSeq_absorb_zero h_h x hx i (j - i) hseq
    rw [Nat.add_sub_cancel' hij] at this
    rw [this]

/-- C6, witness: absorbing behaviour at `n = 3`, `h_h = l_l = 1/2` and
constant draws `1/4`. -/
theorem C6_absorbing_witness :
    (∀ i j, i ≤ j → j < 3 → (markov 3 1 (1/2) (fun _ => 1/4))[i]? = some 1 →
       (markov 3 1 (1/2) (fun _ => 1/4))[j]? = some 1) ∧
    (∀ i j, i ≤ j → j < 3 → (markov 3 (1/2) 1 (fun _ => 1/4))[i]? = some 0 →
       (markov 3 (1/2) 1 (fun _ => 1/4))[j]? = some 0) :=
  C6_absorbing 3 (1/2) (1/2) (fun _ => 1/4)
    (fun _ => ⟨by norm_num, by norm_num⟩)

/-- C7: from state `0` the loop body stores `1` exactly when the draw `r`
satisfies `r > l_l` (both as a fact about the loop body over the reals and
about every position of the stored sequence), so that for a draw uniform on
`[0,1)` and `l_l` in `[0,1]` the probability of moving from `0` to `1` is
`1 - l_l` and the probability of staying in `0` is `l_l`, stated here as
Lebesgue measures of the corresponding sets of draws. -/
theorem C7_state_zero_rule (h_h l_l : ℝ) (h0 : 0 ≤ l_l) (h1 : l_l ≤ 1) :
    (∀ r : ℝ, markovStep h_h l_l r 0 = 1 ↔ r > l_l) ∧
    (∀ (p q : ℚ) (x : ℕ → ℚ) (i : ℕ), markovSeq p q x i = 0 →
        (markovSeq p q x (i + 1) = 1 ↔ x i > q)) ∧
    volume {r : ℝ | r ∈ Set.Ico (0:ℝ) 1 ∧ markovStep h_h l_l r 0 = 1}
      = ENNReal.ofReal (1 - l_l) ∧
    volume {r : ℝ | r ∈ Set.Ico (0:ℝ) 1 ∧ markovStep h_h l_l r 0 = 0}
      = ENNReal.ofReal l_l := by
  have hstep1 : ∀ r : ℝ, markovStep h_h l_l r 0 = 1 ↔ r > l_l := by
    intro r
    unfold markovStep
    norm_num
  have hstep0 : ∀ r : ℝ, markovStep h_h l_l r 0 = 0 ↔ r ≤ l_l := by
    intro r
    unfold markovStep
    norm_num
  refine ⟨hstep1, ?_, ?_, ?_⟩
  · intro p q x i hzero
    show markovStep p q (x i) (markovSeq p q x i) = 1 ↔ x i > q
    rw [hzero]
    unfold markovStep
    norm_num
  · have hset : {r : ℝ | r ∈ Set.Ico (0:ℝ) 1 ∧ markovStep h_h l_l r 0 = 1}
        = Set.Ioo l_l 1 := by
      ext r
      simp only [Set.mem_setOf_eq, Set.mem_Ico, Set.mem_Ioo, hstep1 r]
      constructor
      · rintro ⟨⟨_, hr1⟩, hgt⟩
        exact ⟨hgt, hr1⟩
      · rintro ⟨hgt, hr1⟩
        exact ⟨⟨h0.trans hgt.le, hr1⟩, hgt⟩
    rw [hset, Real.volume_Ioo]
  · rcases lt_or_eq_of_le h1 with hlt | heq
    · have hset : {r : ℝ | r ∈ Set.Ico (0:ℝ) 1 ∧ markovStep h_h l_l r 0 = 0}
          = Set.Icc 0 l_l := by
        ext r
        simp only [Set.mem_setOf_eq, Set.mem_Ico, Set.mem_Icc, hstep0 r]
        constructor
        · rintro ⟨⟨hr0, _⟩, hle⟩
          exact ⟨hr0, hle⟩
        · rintro ⟨hr0, hle⟩
          exact ⟨⟨hr0, lt_of_le_of_lt hle hlt⟩, hle⟩
      rw [hset, Real.volume_Icc, sub_zero]
    · have hset : {r : ℝ | r ∈ Set.Ico (0:ℝ) 1 ∧ markovStep h_h l_l r 0 = 0}
          = Set.Ico 0 1 := by
        ext r
        simp only [Set.mem_setOf_eq, Set.mem_Ico, hstep0 r]
        constructor
        · rintro ⟨⟨hr0, hr1⟩, _⟩
          exact ⟨hr0, hr1⟩
        · rintro ⟨hr0, hr1⟩
          exact ⟨⟨hr0, hr1⟩, heq ▸ hr1.le⟩
      rw [hset, Real.volume_Ico, sub_zero, ← heq]

/-- C7, witness: the state-`0` rule and measures at `h_h = 0`, `l_l = 1/2`. -/
theorem C7_state_zero_rule_witness :
    (∀ r : ℝ, markovStep 0 (1/2) r 0 = 1 ↔ r > 1/2) ∧
    (∀ (p q : ℚ) (x : ℕ → ℚ) (i : ℕ), markovSeq p q x i = 0 →
        (markovSeq p q x (i + 1) = 1 ↔ x i > q)) ∧
    volume {r : ℝ | r ∈ Set.Ico (0:ℝ) 1 ∧ markovStep 0 (1/2) r 0 = 1}
      = ENNReal.ofReal (1 - 1/2) ∧
    volume {r : ℝ | r ∈ Set.Ico (0:ℝ) 1 ∧ markovStep 0 (1/2) r 0 = 0}
      = ENNReal.ofReal (1/2) :=
  C7_state_zero_rule 0 (1/2) (le_of_lt one_half_pos) (le_of_lt one_half_lt_one)

/-- C8, counterexample.  With the transition probability `h_h = 3/2`, which
lies outside `[0,1]`, calling the generator with `n = 3` and draws `1/2`
returns the ordinary three-element sequence `[1, 1, 1]`: the code contains no
parameter check at all, so no InvalidParameter error is ever reported. -/
theorem C8_counterexample :
    markov 3 (3/2) (1/2) (fun _ => 1/2) = [1, 1, 1] ∧ ¬ ((3:ℚ)/2 ≤ 1) := by
  constructor
  · norm_num [markov, List.range_succ, markovSeq, markovStep]
  · norm_num

/-- C8, amended.  The generator performs no parameter validation: for every
`h_h` and `l_l` — including values outside `[0,1]` — and every `n ≥ 1` it
returns a normal length-`n` sequence over `{0,1}` and signals nothing; for
draws in `[0,1)`, a probability above `1` behaves exactly as if clamped to
`1`. -/
theorem C8_no_validation (n : ℕ) (h_h l_l : ℚ) (x : ℕ → ℚ) (_hn : 1 ≤ n)
    (hx : ∀ j, 0 ≤ x j ∧ x j < 1) :
    ((markov n h_h l_l x).length = n ∧ ∀ s ∈ markov n h_h l_l x, s = 0 ∨ s = 1) ∧
    (1 ≤ h_h → markov n h_h l_l x = markov n 1 l_l x) ∧
    (1 ≤ l_l → markov n h_h l_l x = markov n h_h 1 x) := by
  refine ⟨⟨markov_length n h_h l_l x, ?_⟩, ?_, ?_⟩
  · intro s hs
    rcases List.mem_map.mp hs with ⟨i, _, rfl⟩
    exact markovSeq_zero_or_one h_h l_l x i
  · intro hh
    unfold markov
    refine List.map_congr_left fun i _ => ?_
    refine markovSeq_congr_params h_h l_l 1 l_l x i fun j s => ?_
    unfold markovStep
    rcases Decidable.em (s = 1) with h | h
    · simp [h, (hx j).2, lt_of_lt_of_le (hx j).2 hh]
    · simp [h]
  · intro hl
    unfold markov
    refine List.map_congr_left fun i _ => ?_
    refine markovSeq_congr_params h_h l_l h_h 1 x i fun j s => ?_
    unfold markovStep
    rcases Decidable.em (s = 1) with h | h
    · simp [h]
    · have hj1 : ¬ x j > 1 := not_lt.mpr (hx j).2.le
      have hjl : ¬ x j > l_l := not_lt.mpr ((hx j).2.le.trans hl)
      simp [h, hj1, hjl]

/-- C8, witness: no validation at `n = 2`, `h_h = 3/2`, `l_l = -1/2`,
constant draws `1/4`. -/
theorem C8_no_validation_witness :
    ((markov 2 (3/2) (-1/2) (fun _ => 1/4)).length = 2 ∧
      ∀ s ∈ markov 2 (3/2) (-1/2) (fun _ => 1/4), s = 0 ∨ s = 1) ∧
    ((1:ℚ) ≤ 3/2 → markov 2 (3/2) (-1/2) (fun _ => 1/4)
      = markov 2 1 (-1/2) (fun _ => 1/4)) ∧
    ((1:ℚ) ≤ -1/2 → markov 2 (3/2) (-1/2) (fun _ => 1/4)
      = markov 2 (3/2) 1 (fun _ => 1/4)) :=
  C8_no_validation 2 (3/2) (-1/2) (fun _ => 1/4) (by decide)
    (fun _ => ⟨by norm_num, by norm_num⟩)

/-- C9: two runs whose draw streams agree on positions `0` through `n-2`
return identical sequences — the output is fully determined by
`(n, h_h, l_l)` and the first `n-1` draws, and in particular the final draw
`x (n-1)` never influences the output. -/
theorem C9_deterministic (n : ℕ) (h_h l_l : ℚ) (x x' : ℕ → ℚ)
    (hagree : ∀ i, i + 1 < n → x i = x' i) :
    markov n h_h l_l x = markov n h_h l_l x' := by
  unfold markov
  refine List.map_congr_left fun i hi => ?_
  have hi' : i < n := List.mem_range.mp hi
  exact markovSeq_congr_draws h_h l_l x x' i
    fun j hj => hagree j (Nat.lt_of_le_of_lt (Nat.succ_le_of_lt hj) hi')

/-- C9, witness: two streams differing only in the final consumed position
produce the same two-element sequence. -/
theorem C9_deterministic_witness :
    markov 2 (1/2) (1/2) (fun _ => 1/4)
      = markov 2 (1/2) (1/2) (fun i => if i = 0 then 1/4 else 2/3) :=
  C9_deterministic 2 (1/2) (1/2) (fun _ => 1/4)
    (fun i => if i = 0 then 1/4 else 2/3)
    (fun i hi => by
      have h : i = 0 := by omega
      simp [h])

/-- C10: whenever no draw consumed while the current state is `1` equals
`h_h` exactly, `markov1` and `markov` return the same sequence; moreover
their state-`0` branches coincide for every draw, the two loop bodies
differing only in comparing the draw with `h_h` using `<=` versus `<` from
state `1`. -/
theorem C10_markov1_refines_markov (n : ℕ) (h_h l_l : ℚ) (x : ℕ → ℚ)
    (hne : ∀ j, j + 1 < n → markovSeq h_h l_l x j = 1 → x j ≠ h_h) :
    markov1 n h_h l_l x = markov n h_h l_l x ∧
    ∀ r : ℚ, markov1Step h_h l_l r 0 = markovStep h_h l_l r 0 := by
  constructor
  · unfold markov markov1
    refine List.map_congr_left fun i hi => ?_
    exact markov1Seq_eq_markovSeq h_h l_l x n hne i (List.mem_range.mp hi)
  · intro r
    unfold markov1Step markovStep
    norm_num
    rcases le_or_lt r l_l with hle | hlt
    · simp [hle, not_lt.mpr hle]
    · simp [hlt, not_le.mpr hlt]

/-- C10, witness: the two implementations agree at `n = 3`,
`h_h = l_l = 1/2`, constant draws `1/4`. -/
theorem C10_markov1_refines_markov_witness :
    markov1 3 (1/2) (1/2) (fun _ => 1/4) = markov 3 (1/2) (1/2) (fun _ => 1/4) ∧
    ∀ r : ℚ, markov1Step (1/2) (1/2) r 0 = markovStep (1/2) (1/2) r 0 :=
  C10_markov1_refines_markov 3 (1/2) (1/2) (fun _ => 1/4)
    (fun j hj hs => by norm_num)

/-! ## Gram-Schmidt orthonormalisation

Embedding of `gram_schmidt` from the linear-algebra notebook over the real
numbers.  The function receives an `n x k` matrix `X`, normalises column `0`
of `X` to unit Euclidean norm, and for every later column `i` multiplies
column `i` by the annihilator matrix `M = I - Z (Zᵀ Z)⁻¹ Zᵀ` built from the
matrix `Z` of the first `i` columns of `X`, normalising the result.  Division
and `Real.sqrt` at `0` follow Lean's conventions (`a / 0 = 0`,
`Real.sqrt 0 = 0`), which is where the real-arithmetic model and the
floating-point run differ: the float code produces NaN where the model
produces an exact zero column.
-/

/-- The family of columns of a matrix, as vectors. -/
def cols {n k : ℕ} (X : Matrix (Fin n) (Fin k) ℝ) : Fin k → Fin n → ℝ :=
  fun i j => X j i

/-- The matrix `Z = X[:, 0:m]` of the first `m` columns of `X`. -/
def firstCols {n k : ℕ} (X : Matrix (Fin n) (Fin k) ℝ) (m : ℕ) (hm : m ≤ k) :
    Matrix (Fin n) (Fin m) ℝ :=
  X.submatrix id (Fin.castLE hm)

/-- The annihilator `M = np.eye(n) - Z @ np.linalg.inv(Z.T @ Z) @ Z.T` used
by the loop of `gram_schmidt`. -/
noncomputable def projM {n m : ℕ} (Z : Matrix (Fin n) (Fin m) ℝ) :
    Matrix (Fin n) (Fin n) ℝ :=
  1 - Z * (Zᵀ * Z)⁻¹ * Zᵀ

/-- Normalisation `u / np.sqrt(np.sum(u**2))` of a vector to unit norm. -/
noncomputable def normalizeVec {n : ℕ} (v : Fin n → ℝ) : Fin n → ℝ :=
  fun j => v j / Real.sqrt (∑ t, v t ^ 2)

/-- The residual the loop normalises at column `i`: column `0` of `X` itself
for `i = 0` (the function normalises `v1 = X[:,0]` directly), and
`M @ X[:,i]` with `M` built from the first `i` columns for `i >= 1`. -/
noncomputable def resid {n k : ℕ} (X : Matrix (Fin n) (Fin k) ℝ) (i : Fin k) :
    Fin n → ℝ :=
  if (i : ℕ) = 0 then cols X i
  else (projM (firstCols X i i.2.le)).mulVec (cols X i)

/-- `gram_schmidt(X)`: the `n x k` matrix `U` whose column `i` is the
normalised residual of column `i` of `X`. -/
noncomputable def gram_schmidt {n k : ℕ} (X : Matrix (Fin n) (Fin k) ℝ) :
    Matrix (Fin n) (Fin k) ℝ :=
  Matrix.of fun r i => normalizeVec (resid X i) r

/-- Column `i` of `gram_schmidt X`, as a vector. -/
noncomputable def gsCol {n k : ℕ} (X : Matrix (Fin n) (Fin k) ℝ) (i : Fin k) :
    Fin n → ℝ :=
  cols (gram_schmidt X) i

lemma gsCol_eq {n k : ℕ} (X : Matrix (Fin n) (Fin k) ℝ) (i : Fin k) :
    gsCol X i = normalizeVec (resid X i) := rfl

lemma mulVec_eq_sum_cols {n m : ℕ} (A : Matrix (Fin n) (Fin m) ℝ) (v : Fin m → ℝ) :
    A.mulVec v = ∑ t, v t • cols A t := by
  funext j
  rw [Finset.sum_apply]
  simp only [Pi.smul_apply, smul_eq_mul, Matrix.mulVec, Matrix.dotProduct, cols]
  exact Finset.sum_congr rfl fun t _ => mul_comm _ _

lemma linearIndependent_firstCols {n k : ℕ} {X : Matrix (Fin n) (Fin k) ℝ}
    (hX : LinearIndependent ℝ (cols X)) (m : ℕ) (hm : m ≤ k) :
    LinearIndependent ℝ (cols (firstCols X m hm)) := by
  have h : cols (firstCols X m hm) = cols X ∘ Fin.castLE hm := rfl
  rw [h]
  exact hX.comp _ (Fin.castLE_injective hm)

/-- Linear independence of the columns makes the Gram matrix `Zᵀ Z`
invertible. -/
lemma isUnit_gram_det {n m : ℕ} {Z : Matrix (Fin n) (Fin m) ℝ}
    (hZ : LinearIndependent ℝ (cols Z)) : IsUnit (Zᵀ * Z).det := by
  rw [isUnit_iff_ne_zero]
  intro hdet
  obtain ⟨c, hc0, hc⟩ := Matrix.exists_mulVec_eq_zero_iff.mpr hdet
  have key : c ⬝ᵥ Zᵀ.mulVec (Z.mulVec c) = (Z.mulVec c) ⬝ᵥ (Z.mulVec c) := by
    rw [Matrix.dotProduct_mulVec, Matrix.vecMul_transpose]
  have hdot : (Z.mulVec c) ⬝ᵥ (Z.mulVec c) = 0 := by
    calc (Z.mulVec c) ⬝ᵥ (Z.mulVec c)
        = c ⬝ᵥ Zᵀ.mulVec (Z.mulVec c) := key.symm
      _ = c ⬝ᵥ (Zᵀ * Z).mulVec c := by rw [Matrix.mulVec_mulVec]
      _ = 0 := by rw [hc, Matrix.dotProduct_zero]
  have hZc : Z.mulVec c = 0 := by
    funext j
    have hsum : ∑ t, (Z.mulVec c t) ^ 2 = 0 := by
      rw [← hdot]
      simp [Matrix.dotProduct, sq]
    have hj := (Finset.sum_eq_zero_iff_of_nonneg
      (fun t _ => sq_nonneg (Z.mulVec c t))).mp hsum j (Finset.mem_univ j)
    exact (pow_eq_zero_iff two_ne_zero).mp hj
  have hall := Fintype.linearIndependent_iff.mp hZ c
    (by rw [← mulVec_eq_sum_cols]; exact hZc)
  exact hc0 (funext hall)

/-- The annihilator kills the column space of `Z` on the left:
`Zᵀ M = 0`. -/
lemma transpose_mul_projM {n m : ℕ} {Z : Matrix (Fin n) (Fin m) ℝ}
    (hZ : LinearIndependent ℝ (cols Z)) : Zᵀ * projM Z = 0 := by
  have hG : IsUnit (Zᵀ * Z).det := isUnit_gram_det hZ
  unfold projM
  rw [Matrix.mul_sub, Matrix.mul_one]
  have h : Zᵀ * (Z * (Zᵀ * Z)⁻¹ * Zᵀ) = Zᵀ := by
    calc Zᵀ * (Z * (Zᵀ * Z)⁻¹ * Zᵀ)
        = (Zᵀ * Z) * (Zᵀ * Z)⁻¹ * Zᵀ := by simp only [Matrix.mul_assoc]
      _ = Zᵀ := by rw [Matrix.mul_nonsing_inv _ hG, Matrix.one_mul]
  rw [h, sub_self]

/-- Every column of `Z` is orthogonal to every vector the annihilator
produces. -/
lemma cols_dotProduct_projM_mulVec {n m : ℕ} {Z : Matrix (Fin n) (Fin m) ℝ}
    (hZ : LinearIndependent ℝ (cols Z)) (v : Fin n → ℝ) (t : Fin m) :
    cols Z t ⬝ᵥ (projM Z).mulVec v = 0 := by
  have h2 : Zᵀ.mulVec ((projM Z).mulVec v) = 0 := by
    rw [Matrix.mulVec_mulVec, transpose_mul_projM hZ, Matrix.zero_mulVec]
  have h3 := congrFun h2 t
  simpa [Matrix.mulVec, Matrix.dotProduct, cols, Matrix.transpose_apply] using h3

/-- The vector the annihilator produces is the input minus a combination of
the columns of `Z`. -/
lemma projM_mulVec_eq_sub {n m : ℕ} (Z : Matrix (Fin n) (Fin m) ℝ)
    (v : Fin n → ℝ) :
    (projM Z).mulVec v = v - Z.mulVec (((Zᵀ * Z)⁻¹ * Zᵀ).mulVec v) := by
  unfold projM
  rw [Matrix.sub_mulVec, Matrix.one_mulVec, Matrix.mulVec_mulVec,
    Matrix.mul_assoc]

lemma firstCols_mulVec_mem_span {n k : ℕ} (X : Matrix (Fin n) (Fin k) ℝ)
    {m : ℕ} (hm : m ≤ k) (w : Fin m → ℝ) (s : Set (Fin k))
    (hs : ∀ t : Fin m, Fin.castLE hm t ∈ s) :
    (firstCols X m hm).mulVec w ∈ Submodule.span ℝ (cols X '' s) := by
  rw [mulVec_eq_sum_cols]
  refine Submodule.sum_mem _ fun t _ => Submodule.smul_mem _ _
    (Submodule.subset_span ⟨Fin.castLE hm t, hs t, rfl⟩)

/-- The residual at column `i` lies in the span of the first `i + 1` columns
of `X`. -/
lemma resid_mem_span {n k : ℕ} (X : Matrix (Fin n) (Fin k) ℝ) (i : Fin k) :
    resid X i ∈ Submodule.span ℝ (cols X '' {t | t ≤ i}) := by
  unfold resid
  split
  · exact Submodule.subset_span ⟨i, le_refl i, rfl⟩
  · rw [projM_mulVec_eq_sub]
    refine Submodule.sub_mem _ (Submodule.subset_span ⟨i, le_refl i, rfl⟩) ?_
    refine firstCols_mulVec_mem_span X i.2.le _ _ fun t => ?_
    show Fin.castLE i.2.le t ≤ i
    exact le_of_lt (Fin.mk_lt_of_lt_val t.2)

/-- If the columns of `X` are linearly independent, no residual vanishes. -/
lemma resid_ne_zero {n k : ℕ} {X : Matrix (Fin n) (Fin k) ℝ}
    (hX : LinearIndependent ℝ (cols X)) (i : Fin k) : resid X i ≠ 0 := by
  unfold resid
  split
  · exact hX.ne_zero i
  · intro hzero
    rw [projM_mulVec_eq_sub, sub_eq_zero] at hzero
    have hmem : cols X i ∈ Submodule.span ℝ (cols X '' {t | t ≠ i}) := by
      rw [hzero]
      refine firstCols_mulVec_mem_span X i.2.le _ _ fun t => ?_
      show Fin.castLE i.2.le t ≠ i
      exact ne_of_lt (Fin.mk_lt_of_lt_val t.2)
    exact hX.not_mem_span_image (by simp : i ∉ {t : Fin k | t ≠ i}) hmem

/-- Every vector in the span of the first `j` columns is orthogonal to the
residual at column `j`. -/
lemma dotProduct_resid_eq_zero {n k : ℕ} {X : Matrix (Fin n) (Fin k) ℝ}
    (hX : LinearIndependent ℝ (cols X)) (j : Fin k) (hj : (j : ℕ) ≠ 0)
    {v : Fin n → ℝ} (hv : v ∈ Submodule.span ℝ (cols X '' {t | t < j})) :
    v ⬝ᵥ resid X j = 0 := by
  have hgen : ∀ u ∈ cols X '' {t | t < j}, u ⬝ᵥ resid X j = 0 := by
    rintro u ⟨t, htj, rfl⟩
    have hres : resid X j
        = (projM (firstCols X j j.2.le)).mulVec (cols X j) := by
      unfold resid
      rw [if_neg hj]
    rw [hres]
    have hZ := linearIndependent_firstCols hX j j.2.le
    have ht' : (t : ℕ) < (j : ℕ) := htj
    have hcol : cols X t = cols (firstCols X j j.2.le) ⟨t, ht'⟩ := rfl
    rw [hcol]
    exact cols_dotProduct_projM_mulVec hZ _ _
  refine Submodule.span_induction
    (p := fun v _ => v ⬝ᵥ resid X j = 0) hgen ?_ ?_ ?_ hv
  · exact Matrix.zero_dotProduct _
  · intro a b _ _ ha hb
    rw [Matrix.add_dotProduct, ha, hb, add_zero]
  · intro a b _ hb
    rw [Matrix.smul_dotProduct, hb, smul_zero]

lemma normalizeVec_eq_smul {n : ℕ} (v : Fin n → ℝ) :
    normalizeVec v = (Real.sqrt (∑ t, v t ^ 2))⁻¹ • v := by
  funext j
  simp [normalizeVec, div_eq_inv_mul]

lemma sum_sq_pos_of_ne_zero {n : ℕ} {v : Fin n → ℝ} (hv : v ≠ 0) :
    0 < ∑ t, v t ^ 2 := by
  obtain ⟨j, hj⟩ : ∃ j, v j ≠ 0 := by
    by_contra hall
    push_neg at hall
    exact hv (funext hall)
  exact Finset.sum_pos' (fun t _ => sq_nonneg _)
    ⟨j, Finset.mem_univ j, by positivity⟩

/-- Normalising a nonzero vector yields a unit vector. -/
lemma normalizeVec_dotProduct_self {n : ℕ} {v : Fin n → ℝ} (hv : v ≠ 0) :
    normalizeVec v ⬝ᵥ normalizeVec v = 1 := by
  have hS : 0 < ∑ t, v t ^ 2 := sum_sq_pos_of_ne_zero hv
  have hvv : v ⬝ᵥ v = ∑ t, v t ^ 2 := by
    simp [Matrix.dotProduct, sq]
  rw [normalizeVec_eq_smul, Matrix.smul_dotProduct, Matrix.dotProduct_smul,
    smul_eq_mul, smul_eq_mul, hvv, ← mul_assoc, ← mul_inv,
    Real.mul_self_sqrt hS.le, inv_mul_cancel₀ hS.ne']

/-- Distinct columns of `gram_schmidt X` are orthogonal. -/
lemma gsCol_orthogonal {n k : ℕ} {X : Matrix (Fin n) (Fin k) ℝ}
    (hX : LinearIndependent ℝ (cols X)) {i j : Fin k} (hij : i < j) :
    gsCol X i ⬝ᵥ gsCol X j = 0 := by
  rw [gsCol_eq, gsCol_eq, normalizeVec_eq_smul, normalizeVec_eq_smul,
    Matrix.smul_dotProduct, Matrix.dotProduct_smul]
  have hj0 : (j : ℕ) ≠ 0 :=
    Nat.pos_iff_ne_zero.mp (Nat.lt_of_le_of_lt (Nat.zero_le _) hij)
  have hsub : Submodule.span ℝ (cols X '' {t | t ≤ i})
      ≤ Submodule.span ℝ (cols X '' {t | t < j}) :=
    Submodule.span_mono (Set.image_subset _ fun t ht => lt_of_le_of_lt ht hij)
  have h0 : resid X i ⬝ᵥ resid X j = 0 :=
    dotProduct_resid_eq_zero hX j hj0 (hsub (resid_mem_span X i))
  rw [h0, smul_zero, smul_zero]

/-- Orthonormality of the columns of `gram_schmidt X`, as the matrix
identity `Uᵀ U = 1`. -/
lemma gram_schmidt_orthonormal {n k : ℕ} {X : Matrix (Fin n) (Fin k) ℝ}
    (hX : LinearIndependent ℝ (cols X)) :
    (gram_schmidt X)ᵀ * gram_schmidt X = 1 := by
  ext i j
  rw [Matrix.mul_apply]
  have hdot : ∑ r, (gram_schmidt X)ᵀ i r * gram_schmidt X r j
      = gsCol X i ⬝ᵥ gsCol X j := rfl
  rw [hdot]
  rcases eq_or_ne i j with rfl | hne
  · rw [gsCol_eq, normalizeVec_dotProduct_self (resid_ne_zero hX i),
      Matrix.one_apply_eq]
  · rcases lt_or_gt_of_ne hne with h | h
    · rw [gsCol_orthogonal hX h, Matrix.one_apply_ne hne]
    · rw [Matrix.dotProduct_comm, gsCol_orthogonal hX h,
        Matrix.one_apply_ne hne]

/-- The matrix `X = [[1, 0], [0, -6], [2, 2]]` of the projection cells. -/
def Xproj : Matrix (Fin 3) (Fin 2) ℝ := !![1, 0; 0, -6; 2, 2]

/-- The vector `y = [1, 3, -3]` of the projection cells. -/
def yproj : Fin 3 → ℝ := ![1, 3, -3]

lemma linearIndependent_cols_Xproj : LinearIndependent ℝ (cols Xproj) := by
  rw [Fintype.linearIndependent_iff]
  intro g hg
  have h0 := congrFun hg 0
  have h1 := congrFun hg 1
  simp only [Finset.sum_apply, Pi.smul_apply, smul_eq_mul, Fin.sum_univ_two,
    cols, Xproj, Matrix.cons_val_zero, Matrix.cons_val_one, Matrix.head_cons,
    Matrix.of_apply, Matrix.cons_val_fin_one, Matrix.head_fin_const,
    Pi.zero_apply, Matrix.cons_val'] at h0 h1
  intro i
  fin_cases i
  · show g 0 = 0
    linarith
  · show g 1 = 0
    linarith

/-- C2: for every matrix `X` with linearly independent columns, the matrix
`U = gram_schmidt X` satisfies `Uᵀ U = 1` over exact real arithmetic: the
columns of `U` are mutually orthogonal and unit-norm. -/
theorem C2_gram_schmidt_orthonormal (n k : ℕ) (X : Matrix (Fin n) (Fin k) ℝ)
    (hX : LinearIndependent ℝ (cols X)) :
    (gram_schmidt X)ᵀ * gram_schmidt X = 1 :=
  gram_schmidt_orthonormal hX

/-- C2, witness: orthonormality at the concrete matrix
`X = [[1, 0], [0, -6], [2, 2]]` of the notebook. -/
theorem C2_gram_schmidt_orthonormal_witness :
    (gram_schmidt Xproj)ᵀ * gram_schmidt Xproj = 1 :=
  C2_gram_schmidt_orthonormal 3 2 Xproj linearIndependent_cols_Xproj

/-- The closed-form projection `X @ inv(X.T @ X) @ X.T @ y` of the notebook
cell computing `Py1`, generalised over `X` and `y`. -/
noncomputable def proj_closed {n k : ℕ} (X : Matrix (Fin n) (Fin k) ℝ)
    (y : Fin n → ℝ) : Fin n → ℝ :=
  (X * (Xᵀ * X)⁻¹ * Xᵀ).mulVec y

/-- The orthonormal-basis projection `U @ U.T @ y` with
`U = gram_schmidt(X)` of the notebook cell computing `Py2`, generalised
over `X` and `y`. -/
noncomputable def proj_gs {n k : ℕ} (X : Matrix (Fin n) (Fin k) ℝ)
    (y : Fin n → ℝ) : Fin n → ℝ :=
  (gram_schmidt X * (gram_schmidt X)ᵀ).mulVec y

/-- The notebook value `Py1 = X @ inv(X.T @ X) @ X.T @ y`. -/
noncomputable def Py1 : Fin 3 → ℝ := proj_closed Xproj yproj

/-- The notebook value `Py2 = U @ U.T @ y` with `U = gram_schmidt(X)`. -/
noncomputable def Py2 : Fin 3 → ℝ := proj_gs Xproj yproj

lemma transpose_mulVec_apply {n k : ℕ} (X : Matrix (Fin n) (Fin k) ℝ)
    (v : Fin n → ℝ) (t : Fin k) : Xᵀ.mulVec v t = cols X t ⬝ᵥ v := rfl

lemma dotProduct_eq_zero_of_mem_span {n : ℕ} {s : Set (Fin n → ℝ)}
    {d : Fin n → ℝ} (hgen : ∀ u ∈ s, u ⬝ᵥ d = 0) {v : Fin n → ℝ}
    (hv : v ∈ Submodule.span ℝ s) : v ⬝ᵥ d = 0 := by
  refine Submodule.span_induction (p := fun v _ => v ⬝ᵥ d = 0) hgen ?_ ?_ ?_ hv
  · exact Matrix.zero_dotProduct _
  · intro a b _ _ ha hb
    rw [Matrix.add_dotProduct, ha, hb, add_zero]
  · intro c a _ ha
    rw [Matrix.smul_dotProduct, ha, smul_zero]

lemma eq_zero_of_dotProduct_self {n : ℕ} {v : Fin n → ℝ}
    (h : v ⬝ᵥ v = 0) : v = 0 := by
  funext j
  have hsum : ∑ t, v t ^ 2 = 0 := by
    rw [← h]
    simp [Matrix.dotProduct, sq]
  have hj := (Finset.sum_eq_zero_iff_of_nonneg
    (fun t _ => sq_nonneg (v t))).mp hsum j (Finset.mem_univ j)
  exact (pow_eq_zero_iff two_ne_zero).mp hj

/-- Orthogonal projections onto the column space of `X` are unique: two
vectors in the column space whose residuals are both orthogonal to every
column coincide. -/
lemma proj_unique {n k : ℕ} {X : Matrix (Fin n) (Fin k) ℝ} {y p q : Fin n → ℝ}
    (hp : p ∈ Submodule.span ℝ (Set.range (cols X)))
    (hq : q ∈ Submodule.span ℝ (Set.range (cols X)))
    (hyp : Xᵀ.mulVec (y - p) = 0) (hyq : Xᵀ.mulVec (y - q) = 0) : p = q := by
  have hXd : ∀ t, cols X t ⬝ᵥ (p - q) = 0 := by
    intro t
    have h1 := congrFun hyp t
    have h2 := congrFun hyq t
    rw [transpose_mulVec_apply] at h1 h2
    simp only [Pi.zero_apply] at h1 h2
    have hpq : p - q = (y - q) - (y - p) := by abel
    rw [hpq, Matrix.dotProduct_sub, h1, h2, sub_zero]
  have hgen : ∀ u ∈ Set.range (cols X), u ⬝ᵥ (p - q) = 0 := by
    rintro u ⟨t, rfl⟩
    exact hXd t
  have hdd : (p - q) ⬝ᵥ (p - q) = 0 :=
    dotProduct_eq_zero_of_mem_span hgen (Submodule.sub_mem _ hp hq)
  exact sub_eq_zero.mp (eq_zero_of_dotProduct_self hdd)

/-- The closed-form residual is orthogonal to every column of `X`. -/
lemma transpose_mulVec_sub_proj_closed {n k : ℕ}
    {X : Matrix (Fin n) (Fin k) ℝ} (hX : LinearIndependent ℝ (cols X))
    (y : Fin n → ℝ) : Xᵀ.mulVec (y - proj_closed X y) = 0 := by
  have hsub : y - proj_closed X y = (projM X).mulVec y := by
    unfold projM proj_closed
    rw [Matrix.sub_mulVec, Matrix.one_mulVec]
  rw [hsub, Matrix.mulVec_mulVec, transpose_mul_projM hX, Matrix.zero_mulVec]

/-- The closed-form projection lies in the column space of `X`. -/
lemma proj_closed_mem_span {n k : ℕ} (X : Matrix (Fin n) (Fin k) ℝ)
    (y : Fin n → ℝ) :
    proj_closed X y ∈ Submodule.span ℝ (Set.range (cols X)) := by
  unfold proj_closed
  rw [Matrix.mul_assoc, ← Matrix.mulVec_mulVec, mulVec_eq_sum_cols]
  exact Submodule.sum_mem _ fun t _ =>
    Submodule.smul_mem _ _ (Submodule.subset_span ⟨t, rfl⟩)

/-- Every column of `gram_schmidt X` lies in the column space of `X`. -/
lemma gsCol_mem_span {n k : ℕ} (X : Matrix (Fin n) (Fin k) ℝ) (i : Fin k) :
    gsCol X i ∈ Submodule.span ℝ (Set.range (cols X)) := by
  rw [gsCol_eq, normalizeVec_eq_smul]
  refine Submodule.smul_mem _ _ ?_
  exact Submodule.span_mono (Set.image_subset_range _ _) (resid_mem_span X i)

/-- The basis projection lies in the column space of `X`. -/
lemma proj_gs_mem_span {n k : ℕ} (X : Matrix (Fin n) (Fin k) ℝ)
    (y : Fin n → ℝ) :
    proj_gs X y ∈ Submodule.span ℝ (Set.range (cols X)) := by
  unfold proj_gs
  rw [← Matrix.mulVec_mulVec, mulVec_eq_sum_cols]
  exact Submodule.sum_mem _ fun t _ =>
    Submodule.smul_mem _ _ (gsCol_mem_span X t)

/-- The residual scales the corresponding orthonormal column. -/
lemma resid_eq_smul_gsCol {n k : ℕ} {X : Matrix (Fin n) (Fin k) ℝ}
    (hX : LinearIndependent ℝ (cols X)) (i : Fin k) :
    resid X i = Real.sqrt (∑ t, resid X i t ^ 2) • gsCol X i := by
  have hS : 0 < ∑ t, resid X i t ^ 2 :=
    sum_sq_pos_of_ne_zero (resid_ne_zero hX i)
  have hsqrt : Real.sqrt (∑ t, resid X i t ^ 2) ≠ 0 :=
    (Real.sqrt_pos.mpr hS).ne'
  rw [gsCol_eq, normalizeVec_eq_smul, smul_smul, mul_inv_cancel₀ hsqrt,
    one_smul]

/-- Conversely, every column of `X` lies in the span of the orthonormal
columns produced by `gram_schmidt`. -/
lemma cols_mem_span_gsCol {n k : ℕ} {X : Matrix (Fin n) (Fin k) ℝ}
    (hX : LinearIndependent ℝ (cols X)) (t : Fin k) :
    cols X t ∈ Submodule.span ℝ (Set.range (gsCol X)) := by
  suffices h : ∀ m, ∀ t : Fin k, (t : ℕ) ≤ m →
      cols X t ∈ Submodule.span ℝ (Set.range (gsCol X)) from h t t le_rfl
  intro m
  induction m with
  | zero =>
    intro t ht
    have ht0 : (t : ℕ) = 0 := Nat.le_zero.mp ht
    have hres : resid X t = cols X t := by
      unfold resid
      rw [if_pos ht0]
    have hsm := resid_eq_smul_gsCol hX t
    rw [hres] at hsm
    rw [hsm]
    exact Submodule.smul_mem _ _ (Submodule.subset_span ⟨t, rfl⟩)
  | succ m ih =>
    intro t ht
    by_cases hle : (t : ℕ) ≤ m
    · exact ih t hle
    · have hres : resid X t
          = (projM (firstCols X t t.2.le)).mulVec (cols X t) := by
        unfold resid
        split
        next h => exact absurd h (by omega)
        next h => rfl
      rw [projM_mulVec_eq_sub] at hres
      have hdecomp : cols X t = resid X t
          + (firstCols X t t.2.le).mulVec
            ((((firstCols X t t.2.le)ᵀ * firstCols X t t.2.le)⁻¹
              * (firstCols X t t.2.le)ᵀ).mulVec (cols X t)) := by
        rw [hres]
        abel
      rw [hdecomp]
      refine Submodule.add_mem _ ?_ ?_
      · rw [resid_eq_smul_gsCol hX t]
        exact Submodule.smul_mem _ _ (Submodule.subset_span ⟨t, rfl⟩)
      · rw [mulVec_eq_sum_cols]
        refine Submodule.sum_mem _ fun s _ => Submodule.smul_mem _ _ ?_
        have hcast : cols (firstCols X t t.2.le) s
            = cols X (Fin.castLE t.2.le s) := rfl
        rw [hcast]
        refine ih (Fin.castLE t.2.le s) ?_
        have hs : (s : ℕ) < (t : ℕ) := s.2
        have hval : ((Fin.castLE t.2.le s : Fin k) : ℕ) = (s : ℕ) := rfl
        omega

/-- The basis-projection residual is orthogonal to every column of `X`. -/
lemma transpose_mulVec_sub_proj_gs {n k : ℕ}
    {X : Matrix (Fin n) (Fin k) ℝ} (hX : LinearIndependent ℝ (cols X))
    (y : Fin n → ℝ) : Xᵀ.mulVec (y - proj_gs X y) = 0 := by
  have hU : (gram_schmidt X)ᵀ * gram_schmidt X = 1 :=
    gram_schmidt_orthonormal hX
  have hUt : (gram_schmidt X)ᵀ.mulVec (y - proj_gs X y) = 0 := by
    have heq : (gram_schmidt X)ᵀ.mulVec (proj_gs X y)
        = (gram_schmidt X)ᵀ.mulVec y := by
      unfold proj_gs
      rw [Matrix.mulVec_mulVec, ← Matrix.mul_assoc, hU, Matrix.one_mul]
    rw [Matrix.mulVec_sub, heq, sub_self]
  have hgsdot : ∀ s : Fin k, gsCol X s ⬝ᵥ (y - proj_gs X y) = 0 := by
    intro s
    have := congrFun hUt s
    rw [transpose_mulVec_apply] at this
    simpa using this
  funext t
  rw [transpose_mulVec_apply]
  have hgen : ∀ u ∈ Set.range (gsCol X), u ⬝ᵥ (y - proj_gs X y) = 0 := by
    rintro u ⟨s, rfl⟩
    exact hgsdot s
  have := dotProduct_eq_zero_of_mem_span hgen (cols_mem_span_gsCol hX t)
  simpa using this

/-- For every `X` with linearly independent columns and every `y`, the two
projections coincide over exact real arithmetic. -/
lemma proj_gs_eq_proj_closed {n k : ℕ} {X : Matrix (Fin n) (Fin k) ℝ}
    (hX : LinearIndependent ℝ (cols X)) (y : Fin n → ℝ) :
    proj_gs X y = proj_closed X y :=
  proj_unique (proj_gs_mem_span X y) (proj_closed_mem_span X y)
    (transpose_mulVec_sub_proj_gs hX y)
    (transpose_mulVec_sub_proj_closed hX y)

lemma pvec_mem_span :
    (![-13/23, 75/23, -51/23] : Fin 3 → ℝ)
      ∈ Submodule.span ℝ (Set.range (cols Xproj)) := by
  have h : (![-13/23, 75/23, -51/23] : Fin 3 → ℝ)
      = Xproj.mulVec ![-13/23, -25/46] := by
    funext j
    fin_cases j <;>
      norm_num [Xproj, Matrix.mulVec, Matrix.dotProduct, Fin.sum_univ_two]
  rw [h, mulVec_eq_sum_cols]
  exact Submodule.sum_mem _ fun t _ =>
    Submodule.smul_mem _ _ (Submodule.subset_span ⟨t, rfl⟩)

lemma pvec_resid_orthogonal :
    Xprojᵀ.mulVec (yproj - ![-13/23, 75/23, -51/23]) = 0 := by
  funext t
  fin_cases t <;>
    norm_num [Xproj, yproj, Matrix.mulVec, Matrix.dotProduct,
      Fin.sum_univ_three, Matrix.transpose_apply]

lemma Py1_eq_pvec : Py1 = ![-13/23, 75/23, -51/23] := by
  unfold Py1
  exact proj_unique (proj_closed_mem_span Xproj yproj) pvec_mem_span
    (transpose_mulVec_sub_proj_closed linearIndependent_cols_Xproj yproj)
    pvec_resid_orthogonal

lemma Py2_eq_pvec : Py2 = ![-13/23, 75/23, -51/23] := by
  unfold Py2
  rw [proj_gs_eq_proj_closed linearIndependent_cols_Xproj yproj]
  exact Py1_eq_pvec

/-- C5: for every `y` and every `X` with linearly independent columns,
projecting `y` with `U Uᵀ y` (`U` from `gram_schmidt`) equals the
closed-form projection `X (Xᵀ X)⁻¹ Xᵀ y` over exact real arithmetic; in the
concrete notebook case `X = [[1,0],[0,-6],[2,2]]`, `y = [1,3,-3]`, both
give exactly `[-13/23, 75/23, -51/23]`, which is within `10⁻³` of the
printed value `[-0.5652, 3.2609, -2.2174]`. -/
theorem C5_projection_equivalence :
    (∀ (n k : ℕ) (X : Matrix (Fin n) (Fin k) ℝ) (y : Fin n → ℝ),
        LinearIndependent ℝ (cols X) → proj_gs X y = proj_closed X y) ∧
    Py1 = ![-13/23, 75/23, -51/23] ∧
    Py2 = ![-13/23, 75/23, -51/23] ∧
    |(-13/23 : ℝ) - (-0.5652)| < 1/1000 ∧
    |(75/23 : ℝ) - 3.2609| < 1/1000 ∧
    |(-51/23 : ℝ) - (-2.2174)| < 1/1000 := by
  refine ⟨fun n k X y hX => proj_gs_eq_proj_closed hX y,
    Py1_eq_pvec, Py2_eq_pvec, ?_, ?_, ?_⟩ <;>
    (rw [abs_lt]; constructor <;> norm_num)

/-- C5, witness: the universally quantified equivalence applied at the
notebook matrix and vector. -/
theorem C5_projection_equivalence_witness :
    proj_gs Xproj yproj = proj_closed Xproj yproj :=
  C5_projection_equivalence.1 3 2 Xproj yproj linearIndependent_cols_Xproj

lemma normalizeVec_zero {n : ℕ} : normalizeVec (0 : Fin n → ℝ) = 0 := by
  funext j
  simp [normalizeVec]

/-- The annihilator kills the column space of `Z` on the right:
`M Z = 0`. -/
lemma projM_mul_self {n m : ℕ} {Z : Matrix (Fin n) (Fin m) ℝ}
    (hZ : LinearIndependent ℝ (cols Z)) : projM Z * Z = 0 := by
  have hG := isUnit_gram_det hZ
  unfold projM
  rw [Matrix.sub_mul, Matrix.one_mul]
  have h : Z * (Zᵀ * Z)⁻¹ * Zᵀ * Z = Z := by
    calc Z * (Zᵀ * Z)⁻¹ * Zᵀ * Z
        = Z * ((Zᵀ * Z)⁻¹ * (Zᵀ * Z)) := by simp only [Matrix.mul_assoc]
      _ = Z := by rw [Matrix.nonsing_inv_mul _ hG, Matrix.mul_one]
  rw [h, sub_self]

/-- If column `j` duplicates the earlier column `t` and the first `j`
columns are linearly independent, the residual at column `j` is exactly
zero, and the column the routine stores is the zero vector (`0 / sqrt 0`):
no error of any kind is signalled. -/
lemma gsCol_eq_zero_of_dup {n k : ℕ} {X : Matrix (Fin n) (Fin k) ℝ}
    {t j : Fin k} (htj : t < j) (hdup : cols X j = cols X t)
    (hindep : LinearIndependent ℝ (cols (firstCols X j j.2.le))) :
    gsCol X j = 0 := by
  have hj0 : (j : ℕ) ≠ 0 :=
    Nat.pos_iff_ne_zero.mp (Nat.lt_of_le_of_lt (Nat.zero_le _) htj)
  have hres : resid X j = 0 := by
    have hmem : cols X j
        ∈ Submodule.span ℝ (Set.range (cols (firstCols X j j.2.le))) := by
      rw [hdup]
      have hcast : cols X t
          = cols (firstCols X j j.2.le) ⟨t, htj⟩ := rfl
      rw [hcast]
      exact Submodule.subset_span ⟨⟨t, htj⟩, rfl⟩
    have hrange : cols X j
        ∈ LinearMap.range (firstCols X j j.2.le).mulVecLin := by
      rw [Matrix.range_mulVecLin]
      exact hmem
    obtain ⟨c, hc⟩ := hrange
    have hcvec : (firstCols X j j.2.le).mulVec c = cols X j := hc
    unfold resid
    rw [if_neg hj0, ← hcvec, Matrix.mulVec_mulVec, projM_mul_self hindep,
      Matrix.zero_mulVec]
  rw [gsCol_eq, hres, normalizeVec_zero]

/-- The matrix `[[1, 1], [0, 0]]`, whose second column duplicates its
first. -/
def Xdup : Matrix (Fin 2) (Fin 2) ℝ := !![1, 1; 0, 0]

lemma linearIndependent_firstCol_Xdup :
    LinearIndependent ℝ (cols (firstCols Xdup 1 one_le_two)) := by
  apply linearIndependent_unique
  intro h
  have h0 := congrFun h 0
  norm_num [cols, firstCols, Xdup] at h0

/-- C3, counterexample.  On the matrix `[[1, 1], [0, 0]]`, whose second
column duplicates the first, `gram_schmidt` does not raise anything: its
embedding is total and returns a matrix whose offending column is
identically zero (the zero residual divided by `sqrt 0`; the floating-point
run prints NaN there), refuting the claim that a DegenerateSubspace error
is raised instead of a silently zero column — no such error type exists
anywhere in the code. -/
theorem C3_counterexample :
    cols Xdup 1 = cols Xdup 0 ∧ gsCol Xdup 1 = 0 := by
  constructor
  · funext r
    fin_cases r <;> norm_num [cols, Xdup]
  · refine gsCol_eq_zero_of_dup (t := 0) (by decide) ?_
      linearIndependent_firstCol_Xdup
    funext r
    fin_cases r <;> norm_num [cols, Xdup]

/-- C3, amended.  When the input has a duplicated column (column `j` equal
to an earlier column `t`, the first `j` columns being linearly independent
so that the inverse in the loop is defined), the routine does not raise any
DegenerateSubspace error — no such error exists in the code; it returns
with the offending column silently degenerate: the residual is exactly
zero, and the stored column is the zero vector in the real-arithmetic model
(NaN in the floating-point run). -/
theorem C3_no_degenerate_error (n k : ℕ) (X : Matrix (Fin n) (Fin k) ℝ)
    (t j : Fin k) (htj : t < j) (hdup : cols X j = cols X t)
    (hindep : LinearIndependent ℝ (cols (firstCols X j j.2.le))) :
    resid X j = 0 ∧ gsCol X j = 0 := by
  have hcol := gsCol_eq_zero_of_dup htj hdup hindep
  refine ⟨?_, hcol⟩
  have hj0 : (j : ℕ) ≠ 0 :=
    Nat.pos_iff_ne_zero.mp (Nat.lt_of_le_of_lt (Nat.zero_le _) htj)
  by_contra hres
  have hnorm : normalizeVec (resid X j) ⬝ᵥ normalizeVec (resid X j)
      = (0 : Fin n → ℝ) ⬝ᵥ (0 : Fin n → ℝ) := by
    rw [← gsCol_eq, hcol]
  rw [normalizeVec_dotProduct_self hres, Matrix.zero_dotProduct] at hnorm
  exact one_ne_zero hnorm

/-- C3, witness: the amended statement at the concrete duplicated-column
matrix `[[1, 1], [0, 0]]`. -/
theorem C3_no_degenerate_error_witness :
    resid Xdup 1 = 0 ∧ gsCol Xdup 1 = 0 :=
  C3_no_degenerate_error 2 2 Xdup 0 1 (by decide)
    (by funext r; fin_cases r <;> norm_num [cols, Xdup])
    linearIndependent_firstCol_Xdup
